import Mathlib

set_option maxRecDepth 8192

/-!
# Verification of the Typing Speed Tester core

Shallow embedding of the repository's core logic:

* `words_random.py` — the `WordsList` word source: fetching with a fixed
  fallback list (`get_words`) and length-filtered random sampling
  (`get_list`).
* `Typing_Speed_Tester/window.py` — the `TypingSession` state
  (`check_word`, `next_word`, `update_metrics`), the window countdown
  timer (`update_timer`), and the CSV score log
  (`save_score_to_csv` / `get_last_score`).

Python floats appear only as wall-clock timestamps and derived metrics;
they are modelled as rationals.  Randomness (`random.sample`) is modelled
by an explicit stream of random numbers `rnd : Nat → Nat` driving a
draw-without-replacement loop.  Network I/O is modelled by the outcome of
the request, `Except String (List String)`.
-/

/-! ## WordSource (`words_random.py`) -/

/-- `WordsList.get_words` (`words_random.py:22-38`): the body of the
`try` block stores the JSON word list returned by the API; on any
exception the fixed 7-word fallback list is stored instead and nothing
is raised to the caller (the diagnostic `print` is the only trace).
The outcome of `requests.get(url, timeout=5).json()` — a word list, or
an exception — is the argument. -/
def get_words (fetch : Except String (List String)) : List String :=
  match fetch with
  | .ok words => words
  | .error _ => ["default", "word", "list", "in", "case", "of", "error"]

/-- `random.sample(l, k)`: draws `k` elements of `l` without
replacement.  Each draw removes the chosen element, so no position of
`l` can be drawn twice; the stream `rnd` supplies the random choices.
(When `k > len(l)` Python raises; callers guarantee `k ≤ len(l)` and
this model then returns fewer than `k` elements only in that
unreachable case.) -/
def sample (rnd : Nat → Nat) : Nat → List String → List String
  | 0, _ => []
  | _ + 1, [] => []
  | k + 1, a :: l =>
    let i := rnd k % (a :: l).length
    (a :: l).get ⟨i, Nat.mod_lt _ (Nat.succ_pos _)⟩ ::
      sample rnd k ((a :: l).eraseIdx i)

/-- `WordsList.get_list` (`words_random.py:41-55`): keep the words of
length ≤ 8, then sample `min(200, len(filtered_words))` of them. -/
def get_list (rnd : Nat → Nat) (words_list : List String) : List String :=
  let filtered_words := words_list.filter (fun word => decide (word.length ≤ 8))
  sample rnd (min 200 filtered_words.length) filtered_words

/-! ## TypingSession (`window.py:11-76`) -/

/-- The session state of `TypingSession.__init__`/`start`
(`window.py:15-41`).  `start_time` is the `time.time()` wall-clock
timestamp (a rational here), `time_left` the countdown in seconds (a
Python `int`), the counters are naturals, and the derived metrics are
rationals. -/
structure TypingSession where
  words : List String
  start_time : ℚ
  time_left : Int
  correct_words : Nat
  correct_chars : Nat
  current_word_index : Nat
  cpm_corrected : ℚ
  wpm : ℚ
deriving Repr

/-- `TypingSession.start` (`window.py:31-41`) applied by `__init__` to a
fresh session over `words`, with `t0` the `time.time()` value captured
at start. -/
def TypingSession.init (words : List String) (t0 : ℚ) : TypingSession :=
  { words := words
    start_time := t0
    time_left := 60
    correct_words := 0
    correct_chars := 0
    current_word_index := 0
    cpm_corrected := 0
    wpm := 0 }

/-- The word currently under the cursor, `self.words[self.current_word_index]`. -/
def currentWord (s : TypingSession) (h : s.current_word_index < s.words.length) : String :=
  s.words.get ⟨s.current_word_index, h⟩

/-- `TypingSession.check_word` (`window.py:53-65`).  The credit
`sum(1 for i in range(min(len(typed), len(actual))) if typed[i] == actual[i])`
is the length of the filtered index range.  Python raises `IndexError`
when the cursor is past the end of `words`; that is the `none` case. -/
def check_word (typed : String) (s : TypingSession) : Option (Bool × TypingSession) :=
  if h : s.current_word_index < s.words.length then
    let actual := currentWord s h
    let correct_chars :=
      ((List.range (min typed.length actual.length)).filter
        (fun i => decide (typed.data.getD i 'a' = actual.data.getD i 'a'))).length
    let s1 := { s with correct_chars := s.correct_chars + correct_chars }
    if typed = actual then
      some (true, { s1 with correct_words := s1.correct_words + 1 })
    else
      some (false, s1)
  else
    none

/-- `TypingSession.next_word` (`window.py:43-51`): advance the cursor by
one unconditionally; the returned word (or `None` at the end) is
dropped by the caller `space_pressed`, so only the state is kept here. -/
def next_word (s : TypingSession) : TypingSession :=
  { s with current_word_index := s.current_word_index + 1 }

/-- `TypingSession.update_metrics` (`window.py:67-76`), with `now` the
current `time.time()` value.  `if not self.start_time: return` is the
zero test on the timestamp. -/
def update_metrics (now : ℚ) (s : TypingSession) : TypingSession :=
  if s.start_time = 0 then s
  else
    let elapsed_time := max ((now - s.start_time) / 60) (1 / 60)
    let cpm_corrected := (s.correct_chars : ℚ) / elapsed_time
    { s with cpm_corrected := cpm_corrected, wpm := cpm_corrected / 5 }

/-- One word submission: the session mutations of `Window.space_pressed`
(`window.py:242-284`): `check_word` on the typed word, then
`update_metrics`, then `next_word`.  (The rest of that handler only
touches display widgets.) -/
def space_pressed (typed : String) (now : ℚ) (s : TypingSession) : Option TypingSession :=
  (check_word typed s).map (fun p => next_word (update_metrics now p.2))

/-- A sequence of word submissions, each a typed string together with
the wall-clock instant of its space press. -/
def runSubmissions : List (String × ℚ) → TypingSession → Option TypingSession
  | [], s => some s
  | (typed, now) :: rest, s =>
    match space_pressed typed now s with
    | none => none
    | some s' => runSubmissions rest s'

/-- Session completion as `window.py:275` tests it:
`self.session.current_word_index >= len(self.words_list)`. -/
def sessionEnded (s : TypingSession) : Prop :=
  s.words.length ≤ s.current_word_index

instance (s : TypingSession) : Decidable (sessionEnded s) :=
  inferInstanceAs (Decidable (_ ≤ _))

/-- The number of positions `i < min(len t, len w)` with `t[i] == w[i]`,
phrased as a count over the positional pairs of the two strings. -/
def matchCount (t w : String) : Nat :=
  (t.data.zip w.data).countP (fun p => decide (p.1 = p.2))

/-! ## The countdown timer (`window.py:306-319`) -/

/-- The window-level state `Window.update_timer` acts on: the live
session (whose `time_left` it reads and writes) and whether
`Window.end_test` has been invoked. -/
structure WindowState where
  session : TypingSession
  test_ended : Bool
deriving Repr

/-- `Window.update_timer` (`window.py:306-319`): after refreshing the
display, `if self.session.time_left > 0:` decrement and reschedule,
`else:` call `end_test`.  One call is one tick. -/
def update_timer (w : WindowState) : WindowState :=
  if 0 < w.session.time_left then
    { w with session := { w.session with time_left := w.session.time_left - 1 } }
  else
    { w with test_ended := true }

/-- `n` successive timer ticks. -/
def updateTimerIter : Nat → WindowState → WindowState
  | 0, w => w
  | n + 1, w => updateTimerIter n (update_timer w)

/-! ## The CSV score log (`window.py:336-376`) -/

/-- One line of `score/score.csv`: the header `Date,Lang,CPM,WPM` or a
data row.  The `csv` module round-trips the four fields of a row
unchanged, so a row is kept structured; `int(...)` truncation happens
at write time. -/
inductive CsvLine where
  | header
  | record (date lang : String) (cpm wpm : Int)
deriving DecidableEq, Repr

/-- Python `int(x)` on a float/rational: truncation toward zero, which
is `Int` T-division of the numerator by the denominator. -/
def int_trunc (q : ℚ) : Int := q.num / q.den

/-- The score read back by `Window.get_last_score` (`window.py:371-376`). -/
structure LastScore where
  date : String
  lang : String
  cpm : Int
  wpm : Int
deriving DecidableEq, Repr

/-- `Window.save_score_to_csv` (`window.py:336-354`): open the log in
append mode (creating it when absent, the `none` case), write the
header only when the file did not exist, then append the data row with
`int(...)`-truncated metrics. -/
def save_score_to_csv (date lang : String) (cpm wpm : ℚ)
    (file : Option (List CsvLine)) : List CsvLine :=
  let row := CsvLine.record date lang (int_trunc cpm) (int_trunc wpm)
  match file with
  | none => [CsvLine.header, row]
  | some lines => lines ++ [row]

/-- `Window.get_last_score` (`window.py:356-376`): `None` when the file
does not exist or has at most one row; otherwise parse the last row.
(In a log written by this program the last row is always a data row;
the leftover `none` covers the header-only shapes the code tests for.) -/
def get_last_score (file : Option (List CsvLine)) : Option LastScore :=
  match file with
  | none => none
  | some lines =>
    if lines.length ≤ 1 then none
    else
      match lines.getLast? with
      | some (CsvLine.record d l c w) => some ⟨d, l, c, w⟩
      | _ => none

/-- The shapes `score/score.csv` can have when this program manages it:
absent, or a header line followed by rows that are not headers. -/
def ScoreFileWF : Option (List CsvLine) → Prop
  | none => True
  | some lines => ∃ rows, lines = CsvLine.header :: rows ∧ CsvLine.header ∉ rows


/-! ## Lemmas about sampling -/

theorem sample_length (rnd : Nat → Nat) :
    ∀ (k : Nat) (l : List String), k ≤ l.length → (sample rnd k l).length = k
  | 0, _, _ => rfl
  | k + 1, a :: l, h => by
    have hi : rnd k % (l.length + 1) < (a :: l).length :=
      Nat.mod_lt _ (Nat.succ_pos _)
    have hlen : ((a :: l).eraseIdx (rnd k % (l.length + 1))).length = l.length := by
      rw [List.length_eraseIdx_of_lt hi]
      rfl
    have hk : k ≤ ((a :: l).eraseIdx (rnd k % (l.length + 1))).length := by
      rw [hlen]
      simp only [List.length_cons] at h
      omega
    simp only [sample, List.length_cons]
    rw [sample_length rnd k _ hk]

/-- A list is a permutation of any of its elements consed onto the list
with that element's position erased. -/
theorem get_cons_eraseIdx_perm (l : List String) (i : Nat) (h : i < l.length) :
    List.Perm (l.get ⟨i, h⟩ :: l.eraseIdx i) l := by
  conv_rhs => rw [← List.take_append_drop i l]
  rw [List.eraseIdx_eq_take_drop_succ, List.get_eq_getElem]
  refine List.Perm.trans List.perm_middle.symm ?_
  rw [List.getElem_cons_drop]

theorem cons_subperm_cons (a : String) {l₁ l₂ : List String}
    (h : List.Subperm l₁ l₂) : List.Subperm (a :: l₁) (a :: l₂) := by
  obtain ⟨u, hp, hs⟩ := h
  exact ⟨a :: u, hp.cons a, hs.cons₂ a⟩

theorem sample_subperm (rnd : Nat → Nat) :
    ∀ (k : Nat) (l : List String), List.Subperm (sample rnd k l) l
  | 0, _ => List.nil_subperm
  | _ + 1, [] => List.nil_subperm
  | k + 1, a :: l => by
    have hi : rnd k % (a :: l).length < (a :: l).length :=
      Nat.mod_lt _ (Nat.succ_pos _)
    simp only [sample]
    refine List.Subperm.trans
      (cons_subperm_cons _ (sample_subperm rnd k _)) ?_
    exact (get_cons_eraseIdx_perm (a :: l) _ hi).subperm

theorem sample_perm_of_full (rnd : Nat → Nat) (l : List String) :
    List.Perm (sample rnd l.length l) l :=
  (sample_subperm rnd l.length l).perm_of_length_le
    (Nat.le_of_eq (sample_length rnd l.length l (Nat.le_refl _)).symm)

/-! ## Lemmas about character credit -/

/-- The positional count over an index range equals the count over the
zipped character lists. -/
theorem range_count_eq_zip_countP : ∀ (t w : List Char),
    ((List.range (min t.length w.length)).filter
      (fun i => decide (t.getD i 'a' = w.getD i 'a'))).length
    = (t.zip w).countP (fun p => decide (p.1 = p.2))
  | [], w => by simp
  | a :: t, [] => by simp
  | a :: t, b :: w => by
    have ih := range_count_eq_zip_countP t w
    rw [← List.countP_eq_length_filter] at ih ⊢
    rw [List.length_cons, List.length_cons, Nat.succ_min_succ,
      List.range_succ_eq_map, List.zip_cons_cons, List.countP_cons,
      List.countP_cons, List.countP_map]
    simp only [Function.comp_def, List.getD_cons_succ, List.getD_cons_zero]
    rw [ih]

/-- The range-based credit computed in `check_word` is `matchCount`. -/
theorem credit_eq_matchCount (typed actual : String) :
    ((List.range (min typed.length actual.length)).filter
      (fun i => decide (typed.data.getD i 'a' = actual.data.getD i 'a'))).length
    = matchCount typed actual :=
  range_count_eq_zip_countP typed.data actual.data

theorem matchCount_le_min (t w : String) :
    matchCount t w ≤ min t.length w.length := by
  calc (t.data.zip w.data).countP (fun p => decide (p.1 = p.2))
      ≤ (t.data.zip w.data).length := List.countP_le_length _
    _ = min t.data.length w.data.length := List.length_zip t.data w.data
    _ = min t.length w.length := rfl

theorem zip_append_left_of_le : ∀ (t w extra : List Char), w.length ≤ t.length →
    (t ++ extra).zip w = t.zip w
  | _, [], _, _ => by simp
  | a :: t, b :: w, extra, h => by
    simp only [List.cons_append, List.zip_cons_cons]
    rw [zip_append_left_of_le t w extra (by simpa using h)]
  | [], _ :: _, _, h => by simp at h

theorem matchCount_append_extra (t w : String) (extra : List Char)
    (h : w.length ≤ t.length) :
    matchCount ⟨t.data ++ extra⟩ w = matchCount t w := by
  unfold matchCount
  rw [show (String.mk (t.data ++ extra)).data = t.data ++ extra from rfl,
    zip_append_left_of_le t.data w.data extra h]


/-! ## Lemmas about the session operations -/

theorem check_word_eq (typed : String) (s : TypingSession)
    (h : s.current_word_index < s.words.length) :
    check_word typed s =
      (if typed = currentWord s h then
        some (true, { s with
          correct_chars := s.correct_chars + matchCount typed (currentWord s h),
          correct_words := s.correct_words + 1 })
      else
        some (false, { s with
          correct_chars := s.correct_chars + matchCount typed (currentWord s h) })) := by
  unfold check_word
  rw [dif_pos h]
  simp only [credit_eq_matchCount]

theorem check_word_none (typed : String) (s : TypingSession)
    (h : ¬ s.current_word_index < s.words.length) :
    check_word typed s = none := by
  unfold check_word
  rw [dif_neg h]

theorem update_metrics_eq (now : ℚ) (s : TypingSession)
    (h : s.start_time ≠ 0) :
    update_metrics now s =
      { s with
        cpm_corrected := (s.correct_chars : ℚ) / max ((now - s.start_time) / 60) (1 / 60),
        wpm := (s.correct_chars : ℚ) / max ((now - s.start_time) / 60) (1 / 60) / 5 } := by
  unfold update_metrics
  rw [if_neg h]

theorem update_metrics_index (now : ℚ) (s : TypingSession) :
    (update_metrics now s).current_word_index = s.current_word_index := by
  unfold update_metrics
  split <;> rfl

theorem update_metrics_words (now : ℚ) (s : TypingSession) :
    (update_metrics now s).words = s.words := by
  unfold update_metrics
  split <;> rfl

theorem space_step_index (now : ℚ) (t : TypingSession) :
    (next_word (update_metrics now t)).current_word_index = t.current_word_index + 1 := by
  have h1 : (next_word (update_metrics now t)).current_word_index
      = (update_metrics now t).current_word_index + 1 := rfl
  rw [h1, update_metrics_index]

theorem space_step_words (now : ℚ) (t : TypingSession) :
    (next_word (update_metrics now t)).words = t.words := by
  have h1 : (next_word (update_metrics now t)).words = (update_metrics now t).words := rfl
  rw [h1, update_metrics_words]

/-- Every successful submission advances the cursor by exactly one and
keeps the word list; a submission can succeed only from a state whose
cursor is still inside the word list. -/
theorem space_pressed_some_iff (typed : String) (now : ℚ) (s s' : TypingSession)
    (he : space_pressed typed now s = some s') :
    s.current_word_index < s.words.length ∧
    s'.current_word_index = s.current_word_index + 1 ∧
    s'.words = s.words := by
  by_cases h : s.current_word_index < s.words.length
  · refine ⟨h, ?_⟩
    unfold space_pressed at he
    rw [check_word_eq typed s h] at he
    by_cases hc : typed = currentWord s h
    · rw [if_pos hc] at he
      simp only [Option.map_some'] at he
      obtain rfl := Option.some.inj he
      exact ⟨space_step_index now _, space_step_words now _⟩
    · rw [if_neg hc] at he
      simp only [Option.map_some'] at he
      obtain rfl := Option.some.inj he
      exact ⟨space_step_index now _, space_step_words now _⟩
  · unfold space_pressed at he
    rw [check_word_none typed s h] at he
    simp at he

/-- From a not-yet-finished state, a submission always succeeds. -/
theorem space_pressed_isSome (typed : String) (now : ℚ) (s : TypingSession)
    (h : s.current_word_index < s.words.length) :
    ∃ s', space_pressed typed now s = some s' := by
  unfold space_pressed
  rw [check_word_eq typed s h]
  by_cases hc : typed = currentWord s h
  · rw [if_pos hc]
    simp only [Option.map_some']
    exact ⟨_, rfl⟩
  · rw [if_neg hc]
    simp only [Option.map_some']
    exact ⟨_, rfl⟩

/-- Running exactly as many submissions as there are words left lands
the cursor exactly at the end of the word list. -/
theorem runSubmissions_complete :
    ∀ (inputs : List (String × ℚ)) (s : TypingSession),
      s.current_word_index + inputs.length = s.words.length →
      ∃ s', runSubmissions inputs s = some s' ∧
        s'.current_word_index = s'.words.length ∧ s'.words = s.words
  | [], s, h => ⟨s, rfl, by simp only [List.length_nil] at h; omega, rfl⟩
  | (typed, now) :: rest, s, h => by
    have hlt : s.current_word_index < s.words.length := by
      simp only [List.length_cons] at h
      omega
    obtain ⟨s1, hs1⟩ := space_pressed_isSome typed now s hlt
    obtain ⟨-, hidx, hw⟩ := space_pressed_some_iff typed now s s1 hs1
    have hwlen : s1.words.length = s.words.length := by rw [hw]
    obtain ⟨s', hrun, hend, hw'⟩ := runSubmissions_complete rest s1 (by
      simp only [List.length_cons] at h
      omega)
    refine ⟨s', ?_, hend, by rw [hw', hw]⟩
    unfold runSubmissions
    rw [hs1]
    exact hrun

/-- Along any successful run of submissions, the cursor never passes
the end of the word list. -/
theorem runSubmissions_cursor_le :
    ∀ (inputs : List (String × ℚ)) (s s' : TypingSession),
      runSubmissions inputs s = some s' →
      s.current_word_index ≤ s.words.length →
      s'.current_word_index ≤ s'.words.length
  | [], s, s', h, hle => by
    unfold runSubmissions at h
    cases h
    exact hle
  | (typed, now) :: rest, s, s', h, hle => by
    unfold runSubmissions at h
    cases hsp : space_pressed typed now s with
    | none => rw [hsp] at h; cases h
    | some s1 =>
      rw [hsp] at h
      obtain ⟨hlt, hidx, hw⟩ := space_pressed_some_iff typed now s s1 hsp
      have hwlen : s1.words.length = s.words.length := by rw [hw]
      exact runSubmissions_cursor_le rest s1 s' h (by omega)

/-! ## Lemmas about the timer -/

theorem updateTimerIter_succ_back : ∀ (n : Nat) (w : WindowState),
    updateTimerIter (n + 1) w = update_timer (updateTimerIter n w)
  | 0, _ => rfl
  | n + 1, w => by
    show updateTimerIter (n + 1) (update_timer w)
        = update_timer (updateTimerIter (n + 1) w)
    rw [updateTimerIter_succ_back n (update_timer w)]
    rfl

/-- As long as time remains, each tick decrements `time_left` by one
and leaves the end-of-test flag alone. -/
theorem updateTimerIter_spec : ∀ (n : Nat) (w : WindowState),
    (n : Int) ≤ w.session.time_left →
    (updateTimerIter n w).session.time_left = w.session.time_left - n ∧
    (updateTimerIter n w).test_ended = w.test_ended
  | 0, w, _ => ⟨by simp [updateTimerIter], rfl⟩
  | n + 1, w, h => by
    have hpos : 0 < w.session.time_left := by
      have : ((n : Int) + 1) ≤ w.session.time_left := by push_cast at h ⊢; omega
      omega
    have hstep : updateTimerIter (n + 1) w =
        updateTimerIter n
          { w with session := { w.session with time_left := w.session.time_left - 1 } } := by
      show updateTimerIter n (update_timer w) = _
      unfold update_timer
      rw [if_pos hpos]
    rw [hstep]
    obtain ⟨h1, h2⟩ := updateTimerIter_spec n
      { w with session := { w.session with time_left := w.session.time_left - 1 } }
      (by push_cast at h ⊢; omega)
    refine ⟨?_, h2⟩
    rw [h1]
    push_cast
    omega

/-! ## Lemmas about the score log -/

theorem get_list_length (rnd : Nat → Nat) (ws : List String) :
    (get_list rnd ws).length
      = min 200 ((ws.filter (fun word => decide (word.length ≤ 8))).length) :=
  sample_length rnd _ _ (Nat.min_le_right _ _)

/-! ## Claim theorems -/

/-- **C1**: for every typed string `typed` and a session whose current
word is `w = words[cursor]`, `check_word` increments `correct_chars` by
exactly the number of positions `i < min(len typed, len w)` with
`typed[i] = w[i]`; that credit never exceeds `min(len typed, len w)`,
and characters typed beyond `len w` change the credit neither up nor
down. -/
theorem C1_check_word_char_credit (typed w : String) (s : TypingSession)
    (h : s.current_word_index < s.words.length)
    (hw : currentWord s h = w) :
    ∃ b s', check_word typed s = some (b, s') ∧
      s'.correct_chars = s.correct_chars + matchCount typed w ∧
      matchCount typed w ≤ min typed.length w.length ∧
      ∀ extra : List Char, w.length ≤ typed.length →
        matchCount ⟨typed.data ++ extra⟩ w = matchCount typed w := by
  subst hw
  rw [check_word_eq typed s h]
  by_cases hc : typed = currentWord s h
  · rw [if_pos hc]
    exact ⟨true, _, rfl, rfl, matchCount_le_min _ _,
      fun extra hl => matchCount_append_extra _ _ extra hl⟩
  · rw [if_neg hc]
    exact ⟨false, _, rfl, rfl, matchCount_le_min _ _,
      fun extra hl => matchCount_append_extra _ _ extra hl⟩

/-- Witness for C1 at a concrete near-miss: typing `"cot"` against
`"cat"` credits exactly the 2 matching positions. -/
theorem C1_witness :
    ∃ b s', check_word "cot" (TypingSession.init ["cat"] 1) = some (b, s') ∧
      s'.correct_chars = (TypingSession.init ["cat"] 1).correct_chars + matchCount "cot" "cat" ∧
      matchCount "cot" "cat" ≤ min "cot".length "cat".length ∧
      ∀ extra : List Char, "cat".length ≤ "cot".length →
        matchCount ⟨"cot".data ++ extra⟩ "cat" = matchCount "cot" "cat" :=
  C1_check_word_char_credit "cot" "cat" (TypingSession.init ["cat"] 1) (by decide) rfl

/-- **C2**: `check_word` returns `true` and increments `correct_words`
exactly when the typed string equals the current word as a full string;
a character-wise match of different length is not correct, but still
earns its per-character credit. -/
theorem C2_check_word_exact_match (typed w : String) (s : TypingSession)
    (h : s.current_word_index < s.words.length)
    (hw : currentWord s h = w) :
    ∃ b s', check_word typed s = some (b, s') ∧
      (b = true ↔ typed = w) ∧
      s'.correct_words = (if typed = w then s.correct_words + 1 else s.correct_words) ∧
      (typed.length ≠ w.length → b = false ∧ s'.correct_words = s.correct_words) ∧
      s'.correct_chars = s.correct_chars + matchCount typed w := by
  subst hw
  rw [check_word_eq typed s h]
  by_cases hc : typed = currentWord s h
  · rw [if_pos hc]
    refine ⟨true, _, rfl, by simp [hc], by rw [if_pos hc], ?_, rfl⟩
    intro hlen
    exact absurd (by rw [hc]) hlen
  · rw [if_neg hc]
    refine ⟨false, _, rfl, by simp [hc], by rw [if_neg hc], fun _ => ⟨rfl, rfl⟩, rfl⟩

/-- Witness for C2: `"cot"` against `"cat"` is not an exact match (2
credited characters, no word credit); the hypotheses are discharged at
that concrete session. -/
theorem C2_witness :
    ∃ b s', check_word "cot" (TypingSession.init ["cat"] 1) = some (b, s') ∧
      (b = true ↔ "cot" = "cat") ∧
      s'.correct_words = (if "cot" = "cat" then (TypingSession.init ["cat"] 1).correct_words + 1
        else (TypingSession.init ["cat"] 1).correct_words) ∧
      ("cot".length ≠ "cat".length → b = false ∧
        s'.correct_words = (TypingSession.init ["cat"] 1).correct_words) ∧
      s'.correct_chars = (TypingSession.init ["cat"] 1).correct_chars + matchCount "cot" "cat" :=
  C2_check_word_exact_match "cot" "cat" (TypingSession.init ["cat"] 1) (by decide) rfl

/-- **C3 (counterexample)**: starting from `time_left = 60`, after
exactly 60 ticks the countdown reads 0 but the end-of-test has NOT been
triggered — `update_timer` only calls `end_test` on the next (61st)
invocation, when it finds `time_left = 0`.  This refutes the claim that
the session is already Ended after the 60th tick. -/
theorem C3_counterexample :
    (updateTimerIter 60 { session := TypingSession.init [] 0, test_ended := false }).session.time_left = 0 ∧
    (updateTimerIter 60 { session := TypingSession.init [] 0, test_ended := false }).test_ended = false := by
  constructor <;> decide

/-- **C3 (amended)**: each tick taken with time remaining decrements
`time_left` by exactly 1 and does not trigger the end of the test; the
countdown never goes below 0; after exactly 60 ticks from
`time_left = 60` the countdown is 0 with the end-of-test not yet
triggered, and the 61st tick triggers it (leaving the countdown at 0). -/
theorem C3_amended_timer_countdown (w : WindowState)
    (h60 : w.session.time_left = 60) (hend : w.test_ended = false) :
    (∀ v : WindowState, 0 < v.session.time_left →
      (update_timer v).session.time_left = v.session.time_left - 1 ∧
      (update_timer v).test_ended = v.test_ended) ∧
    (∀ v : WindowState, 0 ≤ v.session.time_left →
      0 ≤ (update_timer v).session.time_left) ∧
    (updateTimerIter 60 w).session.time_left = 0 ∧
    (updateTimerIter 60 w).test_ended = false ∧
    (updateTimerIter 61 w).test_ended = true ∧
    (updateTimerIter 61 w).session.time_left = 0 := by
  have h1 : ∀ v : WindowState, 0 < v.session.time_left →
      (update_timer v).session.time_left = v.session.time_left - 1 ∧
      (update_timer v).test_ended = v.test_ended := by
    intro v hv
    unfold update_timer
    rw [if_pos hv]
    exact ⟨rfl, rfl⟩
  have h2 : ∀ v : WindowState, 0 ≤ v.session.time_left →
      0 ≤ (update_timer v).session.time_left := by
    intro v hv
    unfold update_timer
    by_cases hp : 0 < v.session.time_left
    · rw [if_pos hp]
      show 0 ≤ v.session.time_left - 1
      omega
    · rw [if_neg hp]
      exact hv
  obtain ⟨h60tl, h60end⟩ := updateTimerIter_spec 60 w (by rw [h60]; norm_num)
  rw [h60] at h60tl
  norm_num at h60tl
  have h61 : updateTimerIter 61 w = update_timer (updateTimerIter 60 w) :=
    updateTimerIter_succ_back 60 w
  have hnotpos : ¬ 0 < (updateTimerIter 60 w).session.time_left := by
    rw [h60tl]
    omega
  refine ⟨h1, h2, h60tl, h60end.trans hend, ?_, ?_⟩
  · rw [h61]
    unfold update_timer
    rw [if_neg hnotpos]
  · rw [h61]
    unfold update_timer
    rw [if_neg hnotpos]
    exact h60tl

/-- Witness for the amended C3 at a concrete window state. -/
theorem C3_witness :
    (updateTimerIter 60 { session := TypingSession.init ["cat"] 1, test_ended := false }).session.time_left = 0 ∧
    (updateTimerIter 60 { session := TypingSession.init ["cat"] 1, test_ended := false }).test_ended = false ∧
    (updateTimerIter 61 { session := TypingSession.init ["cat"] 1, test_ended := false }).test_ended = true ∧
    (updateTimerIter 61 { session := TypingSession.init ["cat"] 1, test_ended := false }).session.time_left = 0 :=
  (C3_amended_timer_countdown
    { session := TypingSession.init ["cat"] 1, test_ended := false } rfl rfl).2.2

/-- **C4**: the sampled pool has length `min 200 (number of source
words of length ≤ 8)`, every element has length ≤ 8, the pool is drawn
without replacement from the filtered source words (it is a
sub-permutation of them), and an empty filtered set yields the empty
pool. -/
theorem C4_get_list_sample (rnd : Nat → Nat) (ws : List String) :
    (get_list rnd ws).length
        = min 200 ((ws.filter (fun word => decide (word.length ≤ 8))).length) ∧
    (∀ w ∈ get_list rnd ws, w.length ≤ 8) ∧
    List.Subperm (get_list rnd ws) (ws.filter (fun word => decide (word.length ≤ 8))) ∧
    (ws.filter (fun word => decide (word.length ≤ 8)) = [] → get_list rnd ws = []) := by
  have hsub : List.Subperm (get_list rnd ws)
      (ws.filter (fun word => decide (word.length ≤ 8))) :=
    sample_subperm rnd _ _
  refine ⟨get_list_length rnd ws, ?_, hsub, ?_⟩
  · intro w hw
    have hmem : w ∈ ws.filter (fun word => decide (word.length ≤ 8)) :=
      hsub.subset hw
    exact of_decide_eq_true (List.mem_filter.mp hmem).2
  · intro hnil
    have := get_list_length rnd ws
    rw [hnil] at this
    exact List.length_eq_zero.mp (by rw [this]; rfl)

/-- Witness for C4: a single 10-character source word filters to the
empty list, and the sampled pool is empty. -/
theorem C4_witness : get_list (fun _ => 0) ["abcdefghij"] = [] :=
  (C4_get_list_sample (fun _ => 0) ["abcdefghij"]).2.2.2 (by decide)

/-- **C7**: the word fetch never surfaces a failure: on success the
retained list is exactly the remote list; on any failure it is exactly
the fixed 7-element fallback list. -/
theorem C7_get_words_fallback (ws : List String) (e : String) :
    get_words (Except.ok ws) = ws ∧
    get_words (Except.error e) = ["default", "word", "list", "in", "case", "of", "error"] ∧
    (get_words (Except.error e)).length = 7 :=
  ⟨rfl, rfl, rfl⟩

/-- **C9 (counterexample)**: `get_list` filters only by length, never
by case: from the source list `["HELLO"]` the sampled pool is
`["HELLO"]`, whose characters are not lowercase.  This refutes the
claim that every sampled pool consists of lowercase words for every
source list. -/
theorem C9_counterexample :
    ¬ ∀ (rnd : Nat → Nat) (ws : List String),
        ∀ w ∈ get_list rnd ws, ∀ c ∈ w.data, c.isLower = true := by
  intro hall
  have hmem : "HELLO" ∈ get_list (fun _ => 0) ["HELLO"] := by decide
  have := hall (fun _ => 0) ["HELLO"] "HELLO" hmem 'H' (by decide)
  exact absurd this (by decide)

/-- **C9 (amended)**: every element of the sampled pool comes from the
source list, so whenever every source word is lowercase, every word of
the pool is lowercase. -/
theorem C9_amended_pool_lowercase (rnd : Nat → Nat) (ws : List String)
    (hsrc : ∀ w ∈ ws, ∀ c ∈ w.data, c.isLower = true) :
    ∀ w ∈ get_list rnd ws, ∀ c ∈ w.data, c.isLower = true := by
  intro w hw
  have hsub : List.Subperm (get_list rnd ws)
      (ws.filter (fun word => decide (word.length ≤ 8))) :=
    sample_subperm rnd _ _
  have hmem : w ∈ ws.filter (fun word => decide (word.length ≤ 8)) :=
    hsub.subset hw
  exact hsrc w (List.mem_filter.mp hmem).1

/-- Witness for the amended C9: the word of the pool sampled from the
lowercase source list `["abc"]` has a lowercase first character. -/
theorem C9_witness :
    "abc" ∈ get_list (fun _ => 0) ["abc"] ∧ 'a'.isLower = true :=
  ⟨by decide,
   C9_amended_pool_lowercase (fun _ => 0) ["abc"] (by decide) "abc" (by decide)
     'a' (by decide)⟩

/-- **C10 (implicit)**: when the fetch fails, the pool produced by
`get_list` is the sample of the 7-word fallback list, hence has length
7 and is nonempty; an empty pool can only come from a successful fetch
all of whose words are longer than 8 characters. -/
theorem C10_fallback_pool_nonempty (rnd : Nat → Nat)
    (r : Except String (List String)) :
    (∀ e, r = Except.error e →
      (get_list rnd (get_words r)).length = 7 ∧ get_list rnd (get_words r) ≠ []) ∧
    (get_list rnd (get_words r) = [] →
      ∃ ws, r = Except.ok ws ∧ ∀ w ∈ ws, 8 < w.length) := by
  constructor
  · rintro e rfl
    have hlen : (get_list rnd (get_words (Except.error e))).length = 7 := by
      rw [get_list_length]
      rfl
    refine ⟨hlen, ?_⟩
    intro hnil
    rw [hnil] at hlen
    exact absurd hlen (by decide)
  · intro hnil
    cases r with
    | error e =>
      exfalso
      have hlen := get_list_length rnd (get_words (Except.error e))
      have hge : get_words (Except.error e)
          = ["default", "word", "list", "in", "case", "of", "error"] := rfl
      rw [hnil, hge] at hlen
      exact absurd hlen.symm (by decide)
    | ok ws =>
      refine ⟨ws, rfl, ?_⟩
      have hlen := get_list_length rnd (get_words (Except.ok ws))
      have hge : get_words (Except.ok ws) = ws := rfl
      rw [hnil, hge] at hlen
      have hf : ((ws.filter (fun word => decide (word.length ≤ 8))).length) = 0 := by
        simp only [List.length_nil] at hlen
        omega
      have hfe : ws.filter (fun word => decide (word.length ≤ 8)) = [] :=
        List.length_eq_zero.mp hf
      intro w hwmem
      have hnot := List.filter_eq_nil_iff.mp hfe w hwmem
      simp only [decide_eq_true_eq] at hnot
      omega

/-- Witness for C10: a timed-out fetch yields a 7-word pool; a fetch
returning only a 10-character word yields the empty pool. -/
theorem C10_witness :
    ((get_list (fun _ => 0) (get_words (Except.error "timeout"))).length = 7 ∧
      get_list (fun _ => 0) (get_words (Except.error "timeout")) ≠ []) ∧
    ∃ ws, (Except.ok ["abcdefghij"] : Except String (List String)) = Except.ok ws ∧
      ∀ w ∈ ws, 8 < w.length :=
  ⟨(C10_fallback_pool_nonempty (fun _ => 0) (Except.error "timeout")).1 "timeout" rfl,
   (C10_fallback_pool_nonempty (fun _ => 0) (Except.ok ["abcdefghij"])).2 (by decide)⟩

/-- In a field, `5 * (x / 5) = x`. -/
theorem five_mul_div_five (x : ℚ) : 5 * (x / 5) = x := by
  rw [mul_comm]
  exact div_mul_cancel₀ x (by norm_num)

/-- **C5**: after a metric recomputation on a started session,
`cpm_corrected = correct_chars / elapsedMinutes` with
`elapsedMinutes = max ((now - start_time) / 60) (1/60)` — a divisor
never below `1/60`, hence positive — `wpm = cpm_corrected / 5`, and so
`cpm_corrected = 5 * wpm`; the identity also holds in the freshly
initialized state, where both metrics are 0. -/
theorem C5_metric_consistency (now : ℚ) (s : TypingSession)
    (h : s.start_time ≠ 0) :
    (update_metrics now s).cpm_corrected
        = (s.correct_chars : ℚ) / max ((now - s.start_time) / 60) (1 / 60) ∧
    (1 : ℚ) / 60 ≤ max ((now - s.start_time) / 60) (1 / 60) ∧
    (0 : ℚ) < max ((now - s.start_time) / 60) (1 / 60) ∧
    (update_metrics now s).wpm = (update_metrics now s).cpm_corrected / 5 ∧
    (update_metrics now s).cpm_corrected = 5 * (update_metrics now s).wpm ∧
    ∀ (ws : List String) (t0 : ℚ),
      (TypingSession.init ws t0).cpm_corrected = 0 ∧
      (TypingSession.init ws t0).wpm = 0 ∧
      (TypingSession.init ws t0).cpm_corrected = 5 * (TypingSession.init ws t0).wpm := by
  rw [update_metrics_eq now s h]
  refine ⟨rfl, le_max_right _ _, lt_of_lt_of_le (by norm_num) (le_max_right _ _),
    rfl, ?_, ?_⟩
  · exact (five_mul_div_five _).symm
  · intro ws t0
    refine ⟨rfl, rfl, ?_⟩
    show (0 : ℚ) = 5 * 0
    norm_num

/-- Witness for C5 at a concrete started session. -/
theorem C5_witness :
    (update_metrics 2 (TypingSession.init ["cat"] 1)).cpm_corrected
        = ((TypingSession.init ["cat"] 1).correct_chars : ℚ)
          / max ((2 - (TypingSession.init ["cat"] 1).start_time) / 60) (1 / 60) ∧
    (1 : ℚ) / 60 ≤ max ((2 - (TypingSession.init ["cat"] 1).start_time) / 60) (1 / 60) ∧
    (0 : ℚ) < max ((2 - (TypingSession.init ["cat"] 1).start_time) / 60) (1 / 60) ∧
    (update_metrics 2 (TypingSession.init ["cat"] 1)).wpm
        = (update_metrics 2 (TypingSession.init ["cat"] 1)).cpm_corrected / 5 ∧
    (update_metrics 2 (TypingSession.init ["cat"] 1)).cpm_corrected
        = 5 * (update_metrics 2 (TypingSession.init ["cat"] 1)).wpm ∧
    ∀ (ws : List String) (t0 : ℚ),
      (TypingSession.init ws t0).cpm_corrected = 0 ∧
      (TypingSession.init ws t0).wpm = 0 ∧
      (TypingSession.init ws t0).cpm_corrected = 5 * (TypingSession.init ws t0).wpm :=
  C5_metric_consistency 2 (TypingSession.init ["cat"] 1) (by decide)

/-- **C6**: every submission from an Active state (cursor inside the
word list) advances the cursor by exactly 1 whatever was typed; the
cursor never passes the end of the word list along any run of
submissions from a fresh session; and a run of exactly `len words`
submissions succeeds, leaves `cursor = len words`, and the session is
then Ended. -/
theorem C6_cursor_invariant :
    (∀ (typed : String) (now : ℚ) (s s' : TypingSession),
        space_pressed typed now s = some s' →
        s'.current_word_index = s.current_word_index + 1 ∧ s'.words = s.words) ∧
    (∀ (inputs : List (String × ℚ)) (ws : List String) (t0 : ℚ) (s' : TypingSession),
        runSubmissions inputs (TypingSession.init ws t0) = some s' →
        s'.current_word_index ≤ s'.words.length) ∧
    (∀ (inputs : List (String × ℚ)) (ws : List String) (t0 : ℚ),
        inputs.length = ws.length →
        ∃ s', runSubmissions inputs (TypingSession.init ws t0) = some s' ∧
          s'.current_word_index = ws.length ∧ sessionEnded s') := by
  refine ⟨?_, ?_, ?_⟩
  · intro typed now s s' he
    exact (space_pressed_some_iff typed now s s' he).2
  · intro inputs ws t0 s' hrun
    exact runSubmissions_cursor_le inputs _ s' hrun (Nat.zero_le _)
  · intro inputs ws t0 hlen
    obtain ⟨s', hrun, hend, hwords⟩ :=
      runSubmissions_complete inputs (TypingSession.init ws t0) (by
        show 0 + inputs.length = ws.length
        omega)
    refine ⟨s', hrun, ?_, Nat.le_of_eq hend.symm⟩
    rw [hend, hwords]
    rfl

/-- Witness for C6: a two-word session run with one correct and one
incorrect submission ends with the cursor past both words. -/
theorem C6_witness :
    ∃ s', runSubmissions [("cat", 1), ("dg", 2)] (TypingSession.init ["cat", "dog"] 0) = some s' ∧
      s'.current_word_index = ["cat", "dog"].length ∧ sessionEnded s' :=
  C6_cursor_invariant.2.2 [("cat", 1), ("dg", 2)] ["cat", "dog"] 0 rfl

/-- Reading a log that ends in a data row returns that row. -/
theorem get_last_score_concat (lines : List CsvLine) (d l : String) (c w : Int)
    (hne : lines ≠ []) :
    get_last_score (some (lines ++ [CsvLine.record d l c w])) = some ⟨d, l, c, w⟩ := by
  have hlen : ¬ (lines ++ [CsvLine.record d l c w]).length ≤ 1 := by
    cases lines with
    | nil => exact absurd rfl hne
    | cons a t =>
      simp only [List.length_append, List.length_cons]
      omega
  unfold get_last_score
  simp only []
  rw [if_neg hlen, List.getLast?_concat]

/-- **C8**: appending a score record to a well-formed log and reading
the most recent score returns exactly the written values (with the
metrics integer-truncated); reading a missing or header-only log
returns nothing; and the saved log contains the header exactly once —
it is written only on first creation — and stays well-formed. -/
theorem C8_score_log_round_trip (file : Option (List CsvLine))
    (hwf : ScoreFileWF file) (date lang : String) (cpm wpm : ℚ) :
    get_last_score (some (save_score_to_csv date lang cpm wpm file))
        = some ⟨date, lang, int_trunc cpm, int_trunc wpm⟩ ∧
    get_last_score none = none ∧
    get_last_score (some [CsvLine.header]) = none ∧
    (save_score_to_csv date lang cpm wpm file).count CsvLine.header = 1 ∧
    ScoreFileWF (some (save_score_to_csv date lang cpm wpm file)) := by
  cases file with
  | none =>
    refine ⟨rfl, rfl, rfl, ?_, ?_⟩
    · show ([CsvLine.header,
        CsvLine.record date lang (int_trunc cpm) (int_trunc wpm)].count CsvLine.header) = 1
      rw [List.count_cons_self]
      simp
    · exact ⟨[CsvLine.record date lang (int_trunc cpm) (int_trunc wpm)], rfl, by simp⟩
  | some lines =>
    obtain ⟨rows, rfl, hnot⟩ := hwf
    have hsave : save_score_to_csv date lang cpm wpm (some (CsvLine.header :: rows))
        = (CsvLine.header :: rows)
          ++ [CsvLine.record date lang (int_trunc cpm) (int_trunc wpm)] := rfl
    refine ⟨?_, rfl, rfl, ?_, ?_⟩
    · rw [hsave]
      exact get_last_score_concat (CsvLine.header :: rows) date lang
        (int_trunc cpm) (int_trunc wpm) (List.cons_ne_nil _ _)
    · rw [hsave, List.count_append, List.count_cons_self,
        List.count_eq_zero.mpr hnot]
      simp
    · refine ⟨rows ++ [CsvLine.record date lang (int_trunc cpm) (int_trunc wpm)],
        by rw [hsave]; rfl, ?_⟩
      simp only [List.mem_append, List.mem_singleton]
      rintro (hmem | hmem)
      · exact hnot hmem
      · cases hmem

/-- Witness for C8: a first save into a missing log file and its
read-back. -/
theorem C8_witness :
    get_last_score (some (save_score_to_csv "2026-10-12 10:00:00" "en" 100 20 none))
        = some ⟨"2026-10-12 10:00:00", "en", int_trunc 100, int_trunc 20⟩ ∧
    get_last_score none = none ∧
    get_last_score (some [CsvLine.header]) = none ∧
    (save_score_to_csv "2026-10-12 10:00:00" "en" 100 20 none).count CsvLine.header = 1 ∧
    ScoreFileWF (some (save_score_to_csv "2026-10-12 10:00:00" "en" 100 20 none)) :=
  C8_score_log_round_trip none trivial "2026-10-12 10:00:00" "en" 100 20
